import Mathlib

/-
Verification of the PicToMusic staff/note segmentation core (src/p2m/parser.py,
class PParser).  The pure decision logic of the parser is embedded shallowly:

* a contour is a list of integer 2D points, as produced by cv2.findContours;
* cv2.boundingRect is the axis-aligned bounding box (x, y, w, h) with
  w = xmax - xmin + 1 and h = ymax - ymin + 1 over the points of the contour;
* cv2.contourArea is half the absolute value of the shoelace sum of the
  closed polygon;
* the opaque raster operations (threshold, dilation, masking, the contour
  extraction itself) are taken as parameters: each embedded function receives
  the list of raw detected contours that cv2 hands back to the Python code,
  and models everything the Python code then does with them;
* the Python builtin sorted with a key function is a stable sort; it is
  modelled by insertion sort over the non-strict key order, which computes
  exactly the stable sorted permutation;
* imutils.contours.sort_contours raises a ValueError on an empty contour
  list (the tuple unpacking of an empty zip fails), which is modelled by an
  Option result;
* raising ValueError in extract_contours is modelled by Except.
-/

abbrev Point := ℤ × ℤ

abbrev Contour := List Point

/-- Image raster, modelled as a list of rows of pixel values. -/
abbrev Image := List (List ℕ)

/-- Bounding box in the (x, y, w, h) convention of cv2.boundingRect. -/
structure Rect where
  x : ℤ
  y : ℤ
  w : ℤ
  h : ℤ
deriving DecidableEq, Repr

/-- Embedding of cv2.boundingRect: the tight axis-aligned box of the points
of a contour, with inclusive pixel extents (w = xmax - xmin + 1). -/
def boundingRect : Contour → Rect
  | [] => ⟨0, 0, 0, 0⟩
  | p :: ps =>
      let xmin := ps.foldl (fun m q => min m q.1) p.1
      let ymin := ps.foldl (fun m q => min m q.2) p.2
      let xmax := ps.foldl (fun m q => max m q.1) p.1
      let ymax := ps.foldl (fun m q => max m q.2) p.2
      ⟨xmin, ymin, xmax - xmin + 1, ymax - ymin + 1⟩

/-- Cross product term of the shoelace formula. -/
def cross (p q : Point) : ℤ := p.1 * q.2 - q.1 * p.2

/-- Shoelace sum of the edge terms of the polygon p :: ps, closed back to
the point first. -/
def shoelaceFrom (first : Point) : List Point → ℤ
  | [] => 0
  | [p] => cross p first
  | p :: q :: rest => cross p q + shoelaceFrom first (q :: rest)

/-- Signed doubled area of a closed polygon (shoelace formula). -/
def shoelace : Contour → ℤ
  | [] => 0
  | p :: rest => shoelaceFrom p (p :: rest)

/-- Embedding of cv2.contourArea: half the absolute shoelace sum. -/
def contourArea (c : Contour) : ℚ := (((shoelace c).natAbs : ℚ)) / 2

/-- Stable sort by an integer key; models the Python builtin sorted with a
key function (Python sorting is stable). -/
def sortByKey {α : Type} (key : α → ℤ) (l : List α) : List α :=
  List.insertionSort (fun a b => key a ≤ key b) l

/-- Translation of a point, used for padding compensation. -/
def shiftPoint (dx dy : ℤ) (p : Point) : Point := (p.1 + dx, p.2 + dy)

/-- Translation of a whole contour, used for padding compensation
(parser.py lines 141-144). -/
def shiftContour (dx dy : ℤ) (c : Contour) : Contour := c.map (shiftPoint dx dy)

/-- Embedding of imutils.contours.sort_contours with the default
left-to-right method: sorts by the bounding box x coordinate.  On an empty
list the Python implementation raises a ValueError (tuple unpacking of an
empty zip), modelled as none. -/
def sort_contours (cnts : List Contour) : Option (List Contour) :=
  match cnts with
  | [] => none
  | _ :: _ => some (sortByKey (fun c => (boundingRect c).x) cnts)

/-- Embedding of PParser.find_contours (parser.py lines 113-147).  The raster
pipeline (padding, binarization, dilation, cv2.findContours) is opaque; cnts0
is the list of raw contours cv2 returns on the padded image.  The Python code
then filters by strict area comparison, compensates the padding offset when
pad_size is nonzero, and sorts left to right via imutils. -/
def find_contours (cnts0 : List Contour) (min_contour_area : ℤ) (pad_size : ℤ) :
    Option (List Contour) :=
  let cnts := cnts0.filter (fun c => contourArea c > (min_contour_area : ℚ))
  let cnts := if pad_size ≠ 0 then cnts.map (shiftContour (-pad_size) (-pad_size)) else cnts
  sort_contours cnts

/-- Embedding of the body of the inner for-loop of
PParser.group_note_components (parser.py lines 289-311): the test of the next
component (box rect) against one member of the current group (box grect).
The value horizontal_dist is the gap from the last group member, computed
once before the loop (line 280). -/
def memberOverlapCheck (overlap_threshold : ℚ) (max_horizontal_distance horizontal_dist : ℤ)
    (rect grect : Rect) : Bool :=
  let vertical_overlap := rect.y ≤ grect.y + grect.h ∧ grect.y ≤ rect.y + rect.h
  if vertical_overlap then
    let x_left := max rect.x grect.x
    let y_top := max rect.y grect.y
    let x_right := min (rect.x + rect.w) (grect.x + grect.w)
    let y_bottom := min (rect.y + rect.h) (grect.y + grect.h)
    if x_left ≤ x_right ∧ y_top ≤ y_bottom then
      let intersection_area := (x_right - x_left) * (y_bottom - y_top)
      let area1 := rect.w * rect.h
      let area2 := grect.w * grect.h
      let ratio1 : ℚ := if 0 < area1 then (intersection_area : ℚ) / (area1 : ℚ) else 0
      let ratio2 : ℚ := if 0 < area2 then (intersection_area : ℚ) / (area2 : ℚ) else 0
      let max_ratio := max ratio1 ratio2
      decide (max_ratio > overlap_threshold ∨ horizontal_dist ≤ max_horizontal_distance)
    else false
  else false

/-- Embedding of the should_merge computation of group_note_components
(parser.py lines 288-311): the candidate is tested against every member of
the current group, stopping at the first match. -/
def shouldMergeIntoGroup (overlap_threshold : ℚ) (max_horizontal_distance horizontal_dist : ℤ)
    (current_group : List (Contour × Rect)) (rect : Rect) : Bool :=
  current_group.any fun gp =>
    memberOverlapCheck overlap_threshold max_horizontal_distance horizontal_dist rect gp.2

/-- Embedding of PParser.__merge_group (parser.py lines 325-348): a group of
size one is returned unchanged; a larger group becomes the 4-point
axis-aligned rectangle of the union of the member bounding boxes.  The empty
case is unreachable: every call site guards nonemptiness, as in the source. -/
def merge_group (group : List (Contour × Rect)) : Contour :=
  match group with
  | [] => []
  | [(c, _)] => c
  | gp :: gps =>
      let x_min := (gps.map (fun g => g.2.x)).foldl min gp.2.x
      let y_min := (gps.map (fun g => g.2.y)).foldl min gp.2.y
      let x_max := (gps.map (fun g => g.2.x + g.2.w)).foldl max (gp.2.x + gp.2.w)
      let y_max := (gps.map (fun g => g.2.y + g.2.h)).foldl max (gp.2.y + gp.2.h)
      [(x_min, y_min), (x_max, y_min), (x_max, y_max), (x_min, y_max)]

/-- Embedding of the main loop of PParser.group_note_components
(parser.py lines 270-321), processing the x-sorted contours while carrying
the current open group and the emitted groups. -/
def groupLoop (max_horizontal_distance : ℤ) (overlap_threshold : ℚ) :
    List Contour → List (Contour × Rect) → List Contour → List Contour
  | [], current_group, groups =>
      if current_group.isEmpty then groups else groups ++ [merge_group current_group]
  | contour :: rest, current_group, groups =>
      let rect := boundingRect contour
      match current_group with
      | [] => groupLoop max_horizontal_distance overlap_threshold rest [(contour, rect)] groups
      | gp :: gps =>
          let lastRect := ((gp :: gps).getLastD gp).2
          let last_x := lastRect.x + lastRect.w
          let horizontal_dist := rect.x - last_x
          if max_horizontal_distance < horizontal_dist then
            groupLoop max_horizontal_distance overlap_threshold rest [(contour, rect)]
              (groups ++ [merge_group (gp :: gps)])
          else if shouldMergeIntoGroup overlap_threshold max_horizontal_distance horizontal_dist
              (gp :: gps) rect then
            groupLoop max_horizontal_distance overlap_threshold rest
              ((gp :: gps) ++ [(contour, rect)]) groups
          else
            groupLoop max_horizontal_distance overlap_threshold rest [(contour, rect)]
              (groups ++ [merge_group (gp :: gps)])

/-- Embedding of PParser.group_note_components (parser.py lines 246-323). -/
def group_note_components (cnts : List Contour) (max_horizontal_distance : ℤ)
    (overlap_threshold : ℚ) : List Contour :=
  if cnts.isEmpty then [] else
  let sorted_contours := sortByKey (fun c => (boundingRect c).x) cnts
  groupLoop max_horizontal_distance overlap_threshold sorted_contours [] []

/-- Python slice l[a:b] for nonnegative slice bounds. -/
def pySlice {α : Type} (l : List α) (a b : ℤ) : List α :=
  (l.take b.toNat).drop a.toNat

/-- Embedding of PParser.extract_element (parser.py lines 453-455):
crops self.image to a bounding box. -/
def extract_element (img : Image) (bounds : Rect) : Image :=
  (pySlice img bounds.y (bounds.y + bounds.h)).map fun row =>
    pySlice row bounds.x (bounds.x + bounds.w)

/-- Embedding of the region extraction of PParser.extract_contours
(parser.py lines 444-450): either the full image height at the x-span of the
contour, or the bounding box of the contour. -/
def extractRegion (image : Image) (full_height : Bool) (c : Contour) : Image :=
  let r := boundingRect c
  if full_height then
    (pySlice image 0 (image.length : ℤ)).map fun row => pySlice row r.x (r.x + r.w)
  else
    (pySlice image r.y (r.y + r.h)).map fun row => pySlice row r.x (r.x + r.w)

/-- Embedding of PParser.extract_contours (parser.py lines 417-451): sorts
the contours by the chosen axis and extracts one region per contour; any
axis other than 0 or 1 raises a ValueError. -/
def extract_contours (image : Image) (cnts : List Contour) (axis : ℤ)
    (full_height : Bool) : Except String (List Image) :=
  if axis = 0 then
    let sorted_cnts := sortByKey (fun c => (boundingRect c).x) cnts
    Except.ok (sorted_cnts.map (extractRegion image full_height))
  else if axis = 1 then
    let sorted_cnts := sortByKey (fun c => (boundingRect c).y) cnts
    Except.ok (sorted_cnts.map (extractRegion image full_height))
  else
    Except.error "Axis must be 0 for horizontal or 1 for vertical"

/-- Embedding of the Note dataclass of scoretyping.py (geometric fields). -/
structure Note where
  index : ℕ
  relative_index : ℕ
  line_index : ℕ
  image : Image
  contour : Contour
  bounds : Rect
  relative_position : Point
  absolute_position : Point
deriving DecidableEq, Repr

/-- Embedding of the StaffLine dataclass of scoretyping.py. -/
structure StaffLine where
  index : ℕ
  image : Image
  contour : Contour
  bounds : Rect
  notes : List Note
deriving DecidableEq, Repr

/-- Embedding of the staff construction loop of PParser.find_staff_lines
(parser.py lines 160-169): enumerates the y-sorted contours, assigning
sequential indices and bounding boxes. -/
def mkStaffLines (img : Image) : ℕ → List Contour → List StaffLine
  | _, [] => []
  | index, contour :: rest =>
      let bounds := boundingRect contour
      { index := index
        image := extract_element img bounds
        contour := contour
        bounds := bounds
        notes := [] } :: mkStaffLines img (index + 1) rest

/-- Embedding of PParser.find_staff_lines (parser.py lines 149-171).  The
raster side of find_contours is opaque, so page_contours is the raw cv2
contour list of the processed page image. -/
def find_staff_lines (img : Image) (page_contours : List Contour)
    (min_contour_area : ℤ) (pad_size : ℤ) : Option (List StaffLine) :=
  match find_contours page_contours min_contour_area pad_size with
  | none => none
  | some staff_line_contours =>
      some (mkStaffLines img 0 (sortByKey (fun c => (boundingRect c).y) staff_line_contours))

/-- Embedding of the note construction loop of PParser.find_notes
(parser.py lines 216-240): builds one Note per grouped contour, in
left-to-right order, carrying the relative index and the global index.
Here x and y are the origin of the bounding box of the staff contour and
staff_h is the height component of the staff bounds (line 226). -/
def mkNotes (img : Image) (x y staff_h : ℤ) (line_index : ℕ) :
    ℕ → ℕ → List Contour → List Note
  | _, _, [] => []
  | relative_index, global_index, note_contour :: rest =>
      let note_bounds := boundingRect note_contour
      let relative_pos : Point := (note_bounds.x, note_bounds.y)
      let absolute_pos : Point := (x + note_bounds.x, y + note_bounds.y)
      let adjusted_contour := shiftContour x y note_contour
      let bounds : Rect := ⟨note_bounds.x + x, note_bounds.y + y, note_bounds.w, note_bounds.h⟩
      let full_height_bounds : Rect := ⟨bounds.x, y, bounds.w, staff_h⟩
      { index := global_index
        relative_index := relative_index
        line_index := line_index
        image := extract_element img full_height_bounds
        contour := adjusted_contour
        bounds := bounds
        relative_position := relative_pos
        absolute_position := absolute_pos } ::
        mkNotes img x y staff_h line_index (relative_index + 1) (global_index + 1) rest

/-- Embedding of the per-staff loop of PParser.find_notes (parser.py lines
193-240).  The raster side (staff mask, staff-line removal, cv2 detection on
the masked crop) is opaque: detect gives, per staff position, the raw cv2
contour list of that masked staff region.  The loop carries the enumerate
counter line_index and the shared global note counter. -/
def findNotesLoop (img : Image) (detect : ℕ → List Contour)
    (min_contour_area pad_size max_horizontal_distance : ℤ) (overlap_threshold : ℚ) :
    ℕ → ℕ → List StaffLine → Option (List StaffLine)
  | _, _, [] => some []
  | line_index, global_index, staff_line :: rest =>
      let r := boundingRect staff_line.contour
      match find_contours (detect line_index) min_contour_area pad_size with
      | none => none
      | some note_contours0 =>
          let note_contours1 := group_note_components note_contours0
            max_horizontal_distance overlap_threshold
          let note_contours := sortByKey (fun c => (boundingRect c).x) note_contours1
          let new_notes := mkNotes img r.x r.y staff_line.bounds.h line_index
            0 global_index note_contours
          match findNotesLoop img detect min_contour_area pad_size max_horizontal_distance
              overlap_threshold (line_index + 1) (global_index + note_contours.length) rest with
          | none => none
          | some rest2 =>
              some ({ staff_line with notes := staff_line.notes ++ new_notes } :: rest2)

/-- Embedding of PParser.find_notes (parser.py lines 173-244). -/
def find_notes (img : Image) (detect : ℕ → List Contour) (staff_lines : List StaffLine)
    (min_contour_area pad_size max_horizontal_distance : ℤ) (overlap_threshold : ℚ) :
    Option (List StaffLine) :=
  findNotesLoop img detect min_contour_area pad_size max_horizontal_distance overlap_threshold
    0 0 staff_lines

/-- Composition of find_staff_lines followed by find_notes, the pipeline the
index and coordinate invariants speak about. -/
def parsePipeline (img : Image) (page_contours : List Contour) (detect : ℕ → List Contour)
    (staff_min_area staff_pad note_min_area note_pad max_horizontal_distance : ℤ)
    (overlap_threshold : ℚ) : Option (List StaffLine) :=
  match find_staff_lines img page_contours staff_min_area staff_pad with
  | none => none
  | some staff_lines =>
      find_notes img detect staff_lines note_min_area note_pad max_horizontal_distance
        overlap_threshold

/-- Containment of the rectangle a in the rectangle b. -/
def rectInside (a b : Rect) : Prop :=
  b.x ≤ a.x ∧ b.y ≤ a.y ∧ a.x + a.w ≤ b.x + b.w ∧ a.y + a.h ≤ b.y + b.h

/-- Definition following the words of the specification for claim C1, to be
compared with the code: the candidate component matches a group member when
the horizontal gap between the right edge of the member and the left edge of
the candidate is below max_horizontal_distance, or when the vertical extents
overlap and the intersection-over-smaller-area ratio exceeds
overlap_threshold. -/
def specC1Signal (max_horizontal_distance : ℤ) (overlap_threshold : ℚ)
    (member candidate : Rect) : Bool :=
  (candidate.x - (member.x + member.w) < max_horizontal_distance) ||
  (decide (candidate.y ≤ member.y + member.h ∧ member.y ≤ candidate.y + candidate.h) &&
    let x_left := max candidate.x member.x
    let y_top := max candidate.y member.y
    let x_right := min (candidate.x + candidate.w) (member.x + member.w)
    let y_bottom := min (candidate.y + candidate.h) (member.y + member.h)
    let inter : ℚ := ((max (x_right - x_left) 0) * (max (y_bottom - y_top) 0) : ℤ)
    let smaller : ℚ := ((min (candidate.w * candidate.h) (member.w * member.h) : ℤ))
    decide (smaller ≠ 0 ∧ inter / smaller > overlap_threshold))

/-- Concrete staff-scale contour used by the pipeline witnesses. -/
def exStaffContour : Contour := [((0:ℤ), 0), (9, 0), (9, 9), (0, 9)]

/-- Concrete note-scale contour used by the pipeline witnesses. -/
def exNoteContour : Contour := [((1:ℤ), 1), (3, 1), (3, 3), (1, 3)]

/-- The single note produced by the concrete pipeline run of the witnesses. -/
def exNote : Note :=
  { index := 0
    relative_index := 0
    line_index := 0
    image := []
    contour := [((1:ℤ), 1), (3, 1), (3, 3), (1, 3)]
    bounds := ⟨1, 1, 3, 3⟩
    relative_position := (1, 1)
    absolute_position := (1, 1) }

/-- The staff list produced by the concrete pipeline run of the witnesses. -/
def exPipelineStaffs : List StaffLine :=
  [{ index := 0
     image := []
     contour := exStaffContour
     bounds := ⟨0, 0, 10, 10⟩
     notes := [exNote] }]

/-! Helper lemmas about the stable sort. -/

theorem sortByKey_perm {α : Type} (key : α → ℤ) (l : List α) :
    (sortByKey key l).Perm l :=
  List.perm_insertionSort _ l

theorem sortByKey_sorted {α : Type} (key : α → ℤ) (l : List α) :
    (sortByKey key l).Sorted (fun a b => key a ≤ key b) := by
  have ht : IsTotal α (fun a b => key a ≤ key b) := ⟨fun a b => le_total _ _⟩
  have htr : IsTrans α (fun a b => key a ≤ key b) := ⟨fun a b c hab hbc => le_trans hab hbc⟩
  exact @List.sorted_insertionSort α _ _ ht htr l

theorem sortByKey_mem {α : Type} (key : α → ℤ) (l : List α) (a : α) :
    a ∈ sortByKey key l ↔ a ∈ l :=
  (sortByKey_perm key l).mem_iff

theorem sortByKey_length {α : Type} (key : α → ℤ) (l : List α) :
    (sortByKey key l).length = l.length :=
  (sortByKey_perm key l).length_eq

theorem sortByKey_ne_nil {α : Type} (key : α → ℤ) (l : List α) (h : l ≠ []) :
    sortByKey key l ≠ [] := by
  intro hs
  exact h (List.eq_nil_of_length_eq_zero (by rw [← sortByKey_length key l, hs]; rfl))

/-! Helper lemmas: the shoelace area is invariant under translation. -/

theorem shoelaceFrom_shift (dx dy : ℤ) (f p : Point) (ps : List Point) :
    shoelaceFrom (shiftPoint dx dy f) ((p :: ps).map (shiftPoint dx dy)) =
      shoelaceFrom f (p :: ps) + dy * (p.1 - f.1) + dx * (f.2 - p.2) := by
  induction ps generalizing p with
  | nil => simp [shoelaceFrom, cross, shiftPoint]; ring
  | cons q rest ih =>
      have ihq := ih q
      simp only [List.map_cons] at ihq ⊢
      simp only [shoelaceFrom] at ihq ⊢
      rw [ihq]
      simp [cross, shiftPoint]
      ring

theorem shoelace_shiftContour (dx dy : ℤ) (c : Contour) :
    shoelace (shiftContour dx dy c) = shoelace c := by
  cases c with
  | nil => rfl
  | cons p ps =>
      show shoelace ((p :: ps).map (shiftPoint dx dy)) = _
      have h := shoelaceFrom_shift dx dy p p ps
      simp only [List.map_cons] at h ⊢
      simp only [shoelace]
      rw [h]
      ring

theorem contourArea_shiftContour (dx dy : ℤ) (c : Contour) :
    contourArea (shiftContour dx dy c) = contourArea c := by
  simp [contourArea, shoelace_shiftContour]

theorem contourArea_nonneg (c : Contour) : 0 ≤ contourArea c := by
  unfold contourArea
  positivity

/-! Helper lemmas about the area filter of find_contours. -/

theorem filter_area_of_neg (cnts : List Contour) (m : ℤ) (hm : m < 0) :
    cnts.filter (fun c => contourArea c > (m : ℚ)) = cnts := by
  apply List.filter_eq_self.mpr
  intro c _
  have h0 : (m : ℚ) < 0 := by exact_mod_cast hm
  simpa using lt_of_lt_of_le h0 (contourArea_nonneg c)

theorem find_contours_of_neg (cnts : List Contour) (m : ℤ) (hm : m < 0) :
    find_contours cnts m 0 = sort_contours cnts := by
  unfold find_contours
  rw [filter_area_of_neg cnts m hm]
  simp

/-! Helper lemmas about folded minima and maxima of integer keys. -/

theorem foldl_min_le_init {α : Type} (f : α → ℤ) (a : ℤ) (l : List α) :
    l.foldl (fun m q => min m (f q)) a ≤ a := by
  induction l generalizing a with
  | nil => simp
  | cons p ps ih => exact le_trans (ih (min a (f p))) (min_le_left _ _)

theorem init_le_foldl_max {α : Type} (f : α → ℤ) (a : ℤ) (l : List α) :
    a ≤ l.foldl (fun m q => max m (f q)) a := by
  induction l generalizing a with
  | nil => simp
  | cons p ps ih => exact le_trans (le_max_left _ _) (ih (max a (f p)))

theorem foldl_min_le_mem {α : Type} (f : α → ℤ) (a : ℤ) {l : List α} {q : α}
    (hq : q ∈ l) : l.foldl (fun m q => min m (f q)) a ≤ f q := by
  induction l generalizing a with
  | nil => cases hq
  | cons p ps ih =>
      rcases List.mem_cons.mp hq with h | h
      · subst h
        exact le_trans (foldl_min_le_init f _ ps) (min_le_right _ _)
      · exact ih _ h

theorem mem_le_foldl_max {α : Type} (f : α → ℤ) (a : ℤ) {l : List α} {q : α}
    (hq : q ∈ l) : f q ≤ l.foldl (fun m q => max m (f q)) a := by
  induction l generalizing a with
  | nil => cases hq
  | cons p ps ih =>
      rcases List.mem_cons.mp hq with h | h
      · subst h
        exact le_trans (le_max_right _ _) (init_le_foldl_max f _ ps)
      · exact ih _ h

theorem foldl_min_attains {α : Type} (f : α → ℤ) (a : ℤ) (l : List α) :
    l.foldl (fun m q => min m (f q)) a = a ∨
      ∃ q ∈ l, l.foldl (fun m q => min m (f q)) a = f q := by
  induction l generalizing a with
  | nil => exact Or.inl rfl
  | cons p ps ih =>
      rcases ih (min a (f p)) with h | ⟨q, hq, h⟩
      · rcases le_total a (f p) with hle | hle
        · exact Or.inl (by simpa [min_eq_left hle] using h)
        · exact Or.inr ⟨p, List.mem_cons_self _ _, by simpa [min_eq_right hle] using h⟩
      · exact Or.inr ⟨q, List.mem_cons_of_mem _ hq, h⟩

theorem foldl_max_attains {α : Type} (f : α → ℤ) (a : ℤ) (l : List α) :
    l.foldl (fun m q => max m (f q)) a = a ∨
      ∃ q ∈ l, l.foldl (fun m q => max m (f q)) a = f q := by
  induction l generalizing a with
  | nil => exact Or.inl rfl
  | cons p ps ih =>
      rcases ih (max a (f p)) with h | ⟨q, hq, h⟩
      · rcases le_total (f p) a with hle | hle
        · exact Or.inl (by simpa [max_eq_left hle] using h)
        · exact Or.inr ⟨p, List.mem_cons_self _ _, by simpa [max_eq_right hle] using h⟩
      · exact Or.inr ⟨q, List.mem_cons_of_mem _ hq, h⟩

theorem boundingRect_w_nonneg (c : Contour) : 0 ≤ (boundingRect c).w := by
  cases c with
  | nil => simp [boundingRect]
  | cons p ps =>
      have h1 := foldl_min_le_init (fun q : Point => q.1) p.1 ps
      have h2 := init_le_foldl_max (fun q : Point => q.1) p.1 ps
      simp only [boundingRect]
      omega

theorem boundingRect_h_nonneg (c : Contour) : 0 ≤ (boundingRect c).h := by
  cases c with
  | nil => simp [boundingRect]
  | cons p ps =>
      have h1 := foldl_min_le_init (fun q : Point => q.2) p.2 ps
      have h2 := init_le_foldl_max (fun q : Point => q.2) p.2 ps
      simp only [boundingRect]
      omega

/-! Helper lemmas about the grouping loop. -/

theorem groupLoop_nil (m : ℤ) (o : ℚ) (cur : List (Contour × Rect)) (gs : List Contour) :
    groupLoop m o [] cur gs = if cur.isEmpty then gs else gs ++ [merge_group cur] := rfl

theorem groupLoop_cons_open (m : ℤ) (o : ℚ) (c : Contour) (rest : List Contour)
    (gs : List Contour) :
    groupLoop m o (c :: rest) [] gs = groupLoop m o rest [(c, boundingRect c)] gs := rfl

theorem groupLoop_cons_close (m : ℤ) (o : ℚ) (c : Contour) (rest : List Contour)
    (gp : Contour × Rect) (gps : List (Contour × Rect)) (gs : List Contour)
    (h : m < (boundingRect c).x -
      ((((gp :: gps).getLastD gp).2).x + (((gp :: gps).getLastD gp).2).w)) :
    groupLoop m o (c :: rest) (gp :: gps) gs =
      groupLoop m o rest [(c, boundingRect c)] (gs ++ [merge_group (gp :: gps)]) := by
  simp only [groupLoop, h, if_true]

theorem groupLoop_cons_merge (m : ℤ) (o : ℚ) (c : Contour) (rest : List Contour)
    (gp : Contour × Rect) (gps : List (Contour × Rect)) (gs : List Contour)
    (h : ¬ m < (boundingRect c).x -
      ((((gp :: gps).getLastD gp).2).x + (((gp :: gps).getLastD gp).2).w))
    (hsm : shouldMergeIntoGroup o m ((boundingRect c).x -
      ((((gp :: gps).getLastD gp).2).x + (((gp :: gps).getLastD gp).2).w))
      (gp :: gps) (boundingRect c) = true) :
    groupLoop m o (c :: rest) (gp :: gps) gs =
      groupLoop m o rest ((gp :: gps) ++ [(c, boundingRect c)]) gs := by
  simp only [groupLoop, h, hsm]
  simp

theorem groupLoop_cons_nomerge (m : ℤ) (o : ℚ) (c : Contour) (rest : List Contour)
    (gp : Contour × Rect) (gps : List (Contour × Rect)) (gs : List Contour)
    (h : ¬ m < (boundingRect c).x -
      ((((gp :: gps).getLastD gp).2).x + (((gp :: gps).getLastD gp).2).w))
    (hsm : shouldMergeIntoGroup o m ((boundingRect c).x -
      ((((gp :: gps).getLastD gp).2).x + (((gp :: gps).getLastD gp).2).w))
      (gp :: gps) (boundingRect c) = false) :
    groupLoop m o (c :: rest) (gp :: gps) gs =
      groupLoop m o rest [(c, boundingRect c)] (gs ++ [merge_group (gp :: gps)]) := by
  simp only [groupLoop, h, hsm]
  simp

theorem groupLoop_append (m : ℤ) (o : ℚ) (l : List Contour) :
    ∀ (cur : List (Contour × Rect)) (gs : List Contour),
      groupLoop m o l cur gs = gs ++ groupLoop m o l cur [] := by
  induction l with
  | nil =>
      intro cur gs
      cases cur <;> simp [groupLoop_nil]
  | cons c rest ih =>
      intro cur gs
      cases cur with
      | nil =>
          rw [groupLoop_cons_open, groupLoop_cons_open, ih]
      | cons gp gps =>
          by_cases h : m < (boundingRect c).x -
            ((((gp :: gps).getLastD gp).2).x + (((gp :: gps).getLastD gp).2).w)
          · rw [groupLoop_cons_close m o c rest gp gps gs h,
              groupLoop_cons_close m o c rest gp gps [] h,
              ih, ih [(c, boundingRect c)] ([] ++ [merge_group (gp :: gps)])]
            simp
          · cases hsm : shouldMergeIntoGroup o m ((boundingRect c).x -
              ((((gp :: gps).getLastD gp).2).x + (((gp :: gps).getLastD gp).2).w))
              (gp :: gps) (boundingRect c) with
            | false =>
                rw [groupLoop_cons_nomerge m o c rest gp gps gs h hsm,
                  groupLoop_cons_nomerge m o c rest gp gps [] h hsm,
                  ih, ih [(c, boundingRect c)] ([] ++ [merge_group (gp :: gps)])]
                simp
            | true =>
                rw [groupLoop_cons_merge m o c rest gp gps gs h hsm,
                  groupLoop_cons_merge m o c rest gp gps [] h hsm, ih]

theorem groupLoop_runs (m : ℤ) (o : ℚ) (l : List Contour) :
    ∀ (cur : List (Contour × Rect)),
      ∃ runs : List (List (Contour × Rect)),
        (∀ r ∈ runs, r ≠ []) ∧
        runs.flatten = cur ++ l.map (fun c => (c, boundingRect c)) ∧
        groupLoop m o l cur [] = runs.map merge_group := by
  induction l with
  | nil =>
      intro cur
      cases cur with
      | nil => exact ⟨[], by simp, by simp, by simp [groupLoop_nil]⟩
      | cons gp gps =>
          refine ⟨[gp :: gps], by simp, by simp, ?_⟩
          simp [groupLoop_nil]
  | cons c rest ih =>
      intro cur
      cases cur with
      | nil =>
          obtain ⟨runs, h1, h2, h3⟩ := ih [(c, boundingRect c)]
          refine ⟨runs, h1, ?_, ?_⟩
          · rw [h2]; simp
          · rw [groupLoop_cons_open]; exact h3
      | cons gp gps =>
          by_cases h : m < (boundingRect c).x -
            ((((gp :: gps).getLastD gp).2).x + (((gp :: gps).getLastD gp).2).w)
          · obtain ⟨runs, h1, h2, h3⟩ := ih [(c, boundingRect c)]
            refine ⟨(gp :: gps) :: runs, ?_, ?_, ?_⟩
            · intro r hr
              rcases List.mem_cons.mp hr with hr | hr
              · subst hr; simp
              · exact h1 r hr
            · simp only [List.flatten_cons, h2]; simp
            · rw [groupLoop_cons_close m o c rest gp gps [] h, groupLoop_append]
              simp [h3]
          · cases hsm : shouldMergeIntoGroup o m ((boundingRect c).x -
              ((((gp :: gps).getLastD gp).2).x + (((gp :: gps).getLastD gp).2).w))
              (gp :: gps) (boundingRect c) with
            | false =>
                obtain ⟨runs, h1, h2, h3⟩ := ih [(c, boundingRect c)]
                refine ⟨(gp :: gps) :: runs, ?_, ?_, ?_⟩
                · intro r hr
                  rcases List.mem_cons.mp hr with hr | hr
                  · subst hr; simp
                  · exact h1 r hr
                · simp only [List.flatten_cons, h2]; simp
                · rw [groupLoop_cons_nomerge m o c rest gp gps [] h hsm, groupLoop_append]
                  simp [h3]
            | true =>
                obtain ⟨runs, h1, h2, h3⟩ := ih ((gp :: gps) ++ [(c, boundingRect c)])
                refine ⟨runs, h1, ?_, ?_⟩
                · rw [h2]; simp
                · rw [groupLoop_cons_merge m o c rest gp gps [] h hsm]; exact h3

/-! Helper lemmas about merge_group geometry. -/

theorem merge_group_single (c : Contour) (r : Rect) : merge_group [(c, r)] = c := rfl

theorem merge_group_bounds (group : List (Contour × Rect)) (h2 : 2 ≤ group.length) :
    ∃ xm ym xM yM,
      merge_group group = [(xm, ym), (xM, ym), (xM, yM), (xm, yM)] ∧
      (∀ gp ∈ group, xm ≤ gp.2.x ∧ gp.2.x + gp.2.w ≤ xM ∧
        ym ≤ gp.2.y ∧ gp.2.y + gp.2.h ≤ yM) ∧
      (∃ gp ∈ group, gp.2.x = xm) ∧ (∃ gp ∈ group, gp.2.x + gp.2.w = xM) ∧
      (∃ gp ∈ group, gp.2.y = ym) ∧ (∃ gp ∈ group, gp.2.y + gp.2.h = yM) := by
  match group, h2 with
  | gp :: gp2 :: gps, _ =>
      have hmg : merge_group (gp :: gp2 :: gps) =
          [((((gp2 :: gps).map (fun g => g.2.x)).foldl min gp.2.x),
            (((gp2 :: gps).map (fun g => g.2.y)).foldl min gp.2.y)),
           ((((gp2 :: gps).map (fun g => g.2.x + g.2.w)).foldl max (gp.2.x + gp.2.w)),
            (((gp2 :: gps).map (fun g => g.2.y)).foldl min gp.2.y)),
           ((((gp2 :: gps).map (fun g => g.2.x + g.2.w)).foldl max (gp.2.x + gp.2.w)),
            (((gp2 :: gps).map (fun g => g.2.y + g.2.h)).foldl max (gp.2.y + gp.2.h))),
           ((((gp2 :: gps).map (fun g => g.2.x)).foldl min gp.2.x),
            (((gp2 :: gps).map (fun g => g.2.y + g.2.h)).foldl max (gp.2.y + gp.2.h)))] := rfl
      rw [List.foldl_map, List.foldl_map, List.foldl_map, List.foldl_map] at hmg
      refine ⟨_, _, _, _, hmg, ?_, ?_, ?_, ?_, ?_⟩
      · intro gq hq
        rcases List.mem_cons.mp hq with hq | hq
        · subst hq
          exact ⟨foldl_min_le_init _ _ _, init_le_foldl_max _ _ _,
            foldl_min_le_init _ _ _, init_le_foldl_max _ _ _⟩
        · exact ⟨foldl_min_le_mem _ _ hq, mem_le_foldl_max _ _ hq,
            foldl_min_le_mem _ _ hq, mem_le_foldl_max _ _ hq⟩
      · rcases foldl_min_attains (fun g : Contour × Rect => g.2.x) gp.2.x (gp2 :: gps) with
          hA | ⟨q, hq, hA⟩
        · exact ⟨gp, List.mem_cons_self _ _, hA.symm⟩
        · exact ⟨q, List.mem_cons_of_mem _ hq, hA.symm⟩
      · rcases foldl_max_attains (fun g : Contour × Rect => g.2.x + g.2.w)
          (gp.2.x + gp.2.w) (gp2 :: gps) with hA | ⟨q, hq, hA⟩
        · exact ⟨gp, List.mem_cons_self _ _, hA.symm⟩
        · exact ⟨q, List.mem_cons_of_mem _ hq, hA.symm⟩
      · rcases foldl_min_attains (fun g : Contour × Rect => g.2.y) gp.2.y (gp2 :: gps) with
          hA | ⟨q, hq, hA⟩
        · exact ⟨gp, List.mem_cons_self _ _, hA.symm⟩
        · exact ⟨q, List.mem_cons_of_mem _ hq, hA.symm⟩
      · rcases foldl_max_attains (fun g : Contour × Rect => g.2.y + g.2.h)
          (gp.2.y + gp.2.h) (gp2 :: gps) with hA | ⟨q, hq, hA⟩
        · exact ⟨gp, List.mem_cons_self _ _, hA.symm⟩
        · exact ⟨q, List.mem_cons_of_mem _ hq, hA.symm⟩

theorem boundingRect_rect4 (xm ym xM yM : ℤ) (hx : xm ≤ xM) (hy : ym ≤ yM) :
    boundingRect [(xm, ym), (xM, ym), (xM, yM), (xm, yM)] =
      ⟨xm, ym, xM - xm + 1, yM - ym + 1⟩ := by
  simp only [boundingRect, List.foldl_cons, List.foldl_nil, Rect.mk.injEq]
  refine ⟨?_, ?_, ?_, ?_⟩ <;> omega

/-! Characterization of the per-member merge test once the gap guard holds. -/

theorem memberOverlapCheck_of_le (o : ℚ) (m hd : ℤ) (r g : Rect) (h : hd ≤ m) :
    memberOverlapCheck o m hd r g = true ↔
      ((r.y ≤ g.y + g.h ∧ g.y ≤ r.y + r.h) ∧
       max r.x g.x ≤ min (r.x + r.w) (g.x + g.w) ∧
       max r.y g.y ≤ min (r.y + r.h) (g.y + g.h)) := by
  simp only [memberOverlapCheck]
  constructor
  · intro hx
    by_cases h1 : (r.y ≤ g.y + g.h ∧ g.y ≤ r.y + r.h)
    · by_cases h2 : (max r.x g.x ≤ min (r.x + r.w) (g.x + g.w) ∧
        max r.y g.y ≤ min (r.y + r.h) (g.y + g.h))
      · exact ⟨h1, h2⟩
      · rw [if_pos h1, if_neg h2] at hx
        simp at hx
    · rw [if_neg h1] at hx
      simp at hx
  · intro hx
    rw [if_pos hx.1, if_pos hx.2]
    simp only [decide_eq_true_eq]
    exact Or.inr h

/-! Helper lemmas about the staff and note construction loops. -/

theorem mkStaffLines_length (img : Image) (k : ℕ) (l : List Contour) :
    (mkStaffLines img k l).length = l.length := by
  induction l generalizing k with
  | nil => rfl
  | cons c rest ih => simp [mkStaffLines, ih]

theorem mkStaffLines_get_index (img : Image) (l : List Contour) :
    ∀ (k : ℕ) (i : ℕ) (hi : i < (mkStaffLines img k l).length),
      ((mkStaffLines img k l).get ⟨i, hi⟩).index = k + i := by
  induction l with
  | nil => intro k i hi; simp [mkStaffLines] at hi
  | cons c rest ih =>
      intro k i hi
      cases i with
      | zero => rfl
      | succ j =>
          have hj : j < (mkStaffLines img (k + 1) rest).length := by
            simpa [mkStaffLines] using hi
          have := ih (k + 1) j hj
          simp only [mkStaffLines, List.get_cons_succ]
          rw [this]
          omega

theorem mkStaffLines_map_bounds (img : Image) (k : ℕ) (l : List Contour) :
    (mkStaffLines img k l).map StaffLine.bounds = l.map boundingRect := by
  induction l generalizing k with
  | nil => rfl
  | cons c rest ih => simp [mkStaffLines, ih]

theorem mkStaffLines_mem (img : Image) (k : ℕ) (l : List Contour) :
    ∀ sl ∈ mkStaffLines img k l, sl.notes = [] ∧ sl.bounds = boundingRect sl.contour := by
  induction l generalizing k with
  | nil => intro sl h; cases h
  | cons c rest ih =>
      intro sl h
      rcases List.mem_cons.mp h with h | h
      · subst h; exact ⟨rfl, rfl⟩
      · exact ih (k + 1) sl h

theorem mkNotes_length (img : Image) (x y H : ℤ) (li : ℕ) (l : List Contour) :
    ∀ (ri g : ℕ), (mkNotes img x y H li ri g l).length = l.length := by
  induction l with
  | nil => intro ri g; rfl
  | cons c rest ih => intro ri g; simp [mkNotes, ih]

theorem mkNotes_map_relative (img : Image) (x y H : ℤ) (li : ℕ) (l : List Contour) :
    ∀ (ri g : ℕ),
      (mkNotes img x y H li ri g l).map Note.relative_index = List.range' ri l.length := by
  induction l with
  | nil => intro ri g; rfl
  | cons c rest ih =>
      intro ri g
      simp only [mkNotes, List.map_cons, List.length_cons, List.range'_succ]
      rw [ih]

theorem mkNotes_map_index (img : Image) (x y H : ℤ) (li : ℕ) (l : List Contour) :
    ∀ (ri g : ℕ),
      (mkNotes img x y H li ri g l).map Note.index = List.range' g l.length := by
  induction l with
  | nil => intro ri g; rfl
  | cons c rest ih =>
      intro ri g
      simp only [mkNotes, List.map_cons, List.length_cons, List.range'_succ]
      rw [ih]

theorem mkNotes_mem_abs (img : Image) (x y H : ℤ) (li : ℕ) (l : List Contour) :
    ∀ (ri g : ℕ), ∀ n ∈ mkNotes img x y H li ri g l,
      n.absolute_position = (n.relative_position.1 + x, n.relative_position.2 + y) := by
  induction l with
  | nil => intro ri g n h; cases h
  | cons c rest ih =>
      intro ri g n h
      rcases List.mem_cons.mp h with h | h
      · subst h
        simp only [mkNotes]
        show (x + (boundingRect c).x, y + (boundingRect c).y) = _
        simp [add_comm]
      · exact ih (ri + 1) (g + 1) n h

theorem findNotesLoop_inv (img : Image) (detect : ℕ → List Contour) (a b m : ℤ) (o : ℚ)
    (li g : ℕ) (sl : StaffLine) (rest : List StaffLine) (out : List StaffLine)
    (h : findNotesLoop img detect a b m o li g (sl :: rest) = some out) :
    ∃ ncs rest2,
      find_contours (detect li) a b = some ncs ∧
      findNotesLoop img detect a b m o (li + 1)
        (g + (sortByKey (fun c => (boundingRect c).x)
          (group_note_components ncs m o)).length) rest = some rest2 ∧
      out = { sl with notes := (sl.notes ++
              mkNotes img (boundingRect sl.contour).x (boundingRect sl.contour).y
                sl.bounds.h li 0 g
                (sortByKey (fun c => (boundingRect c).x)
                  (group_note_components ncs m o))) }
        :: rest2 := by
  simp only [findNotesLoop] at h
  split at h
  · exact absurd h (by simp)
  · rename_i ncs hfc
    split at h
    · exact absurd h (by simp)
    · rename_i rest2 hrec
      exact ⟨ncs, rest2, hfc, hrec, (Option.some.inj h).symm⟩

theorem findNotesLoop_abs (img : Image) (detect : ℕ → List Contour) (a b m : ℤ) (o : ℚ) :
    ∀ (staffs : List StaffLine) (li g : ℕ) (out : List StaffLine),
      findNotesLoop img detect a b m o li g staffs = some out →
      (∀ sl ∈ staffs, sl.bounds = boundingRect sl.contour ∧ sl.notes = []) →
      ∀ sl ∈ out, ∀ n ∈ sl.notes,
        n.absolute_position =
          (n.relative_position.1 + sl.bounds.x, n.relative_position.2 + sl.bounds.y) := by
  intro staffs
  induction staffs with
  | nil =>
      intro li g out h _ sl hsl
      simp only [findNotesLoop] at h
      rw [← Option.some.inj h] at hsl
      cases hsl
  | cons sl0 rest ih =>
      intro li g out h hpre sl hsl n hn
      obtain ⟨ncs, rest2, hfc, hrec, hout⟩ :=
        findNotesLoop_inv img detect a b m o li g sl0 rest out h
      subst hout
      rcases List.mem_cons.mp hsl with hsl | hsl
      · subst hsl
        obtain ⟨hb, hnotes⟩ := hpre sl0 (List.mem_cons_self _ _)
        simp only [hnotes, List.nil_append] at hn
        have habs := mkNotes_mem_abs img (boundingRect sl0.contour).x
          (boundingRect sl0.contour).y sl0.bounds.h li _ 0 g n hn
        rw [habs]
        simp [hb]
      · exact ih (li + 1) _ rest2 hrec
          (fun s hs => hpre s (List.mem_cons_of_mem _ hs)) sl hsl n hn

theorem findNotesLoop_frame (img : Image) (detect : ℕ → List Contour) (a b m : ℤ) (o : ℚ) :
    ∀ (staffs : List StaffLine) (li g : ℕ) (out : List StaffLine),
      findNotesLoop img detect a b m o li g staffs = some out →
      out.map StaffLine.index = staffs.map StaffLine.index ∧
      out.map StaffLine.bounds = staffs.map StaffLine.bounds := by
  intro staffs
  induction staffs with
  | nil =>
      intro li g out h
      simp only [findNotesLoop] at h
      rw [← Option.some.inj h]
      exact ⟨rfl, rfl⟩
  | cons sl0 rest ih =>
      intro li g out h
      obtain ⟨ncs, rest2, hfc, hrec, hout⟩ :=
        findNotesLoop_inv img detect a b m o li g sl0 rest out h
      subst hout
      obtain ⟨hi, hb⟩ := ih (li + 1) _ rest2 hrec
      constructor
      · simp [hi]
      · simp [hb]

theorem range'_append_add (s n m : ℕ) :
    List.range' s n ++ List.range' (s + n) m = List.range' s (n + m) := by
  have h := List.range'_append s n m 1
  simpa [Nat.add_comm] using h

theorem findNotesLoop_indices (img : Image) (detect : ℕ → List Contour)
    (a b m : ℤ) (o : ℚ) :
    ∀ (staffs : List StaffLine) (li g : ℕ) (out : List StaffLine),
      findNotesLoop img detect a b m o li g staffs = some out →
      (∀ sl ∈ staffs, sl.notes = []) →
      ((out.flatMap StaffLine.notes).map Note.index =
        List.range' g (out.flatMap StaffLine.notes).length) ∧
      (∀ sl ∈ out, sl.notes.map Note.relative_index = List.range sl.notes.length) := by
  intro staffs
  induction staffs with
  | nil =>
      intro li g out h _
      simp only [findNotesLoop] at h
      rw [← Option.some.inj h]
      exact ⟨rfl, by intro sl hsl; cases hsl⟩
  | cons sl0 rest ih =>
      intro li g out h hpre
      obtain ⟨ncs, rest2, hfc, hrec, hout⟩ :=
        findNotesLoop_inv img detect a b m o li g sl0 rest out h
      subst hout
      have hn0 : sl0.notes = [] := hpre sl0 (List.mem_cons_self _ _)
      obtain ⟨ihg, ihr⟩ := ih (li + 1) _ rest2 hrec
        (fun s hs => hpre s (List.mem_cons_of_mem _ hs))
      constructor
      · simp only [List.flatMap_cons, List.map_append, List.length_append, hn0,
          List.nil_append]
        rw [mkNotes_map_index, mkNotes_length, ihg]
        exact range'_append_add g _ _
      · intro sl hsl
        rcases List.mem_cons.mp hsl with hsl | hsl
        · subst hsl
          simp only [hn0, List.nil_append]
          rw [mkNotes_map_relative, mkNotes_length, List.range_eq_range']
        · exact ihr sl hsl

/-- Claim C1 (amended).  In group_note_components, once the gap guard has
passed (the gap from the LAST member is at most max_horizontal_distance), a
component is added to the current open group if and only if its bounding box
intersects (closed intervals, touching included) the bounding box of at
least one member of the group; the overlap_threshold parameter plays no role
in this decision, because the disjunct comparing the gap with
max_horizontal_distance is always true at the point where the ratio test is
evaluated.  The horizontal gap itself is measured only against the last
member of the group, not against every member. -/
theorem claim_C1_group_membership (o o2 : ℚ) (m hd : ℤ)
    (current_group : List (Contour × Rect)) (rect : Rect) (h : hd ≤ m) :
    shouldMergeIntoGroup o m hd current_group rect =
      shouldMergeIntoGroup o2 m hd current_group rect ∧
    (shouldMergeIntoGroup o m hd current_group rect = true ↔
      ∃ gp ∈ current_group,
        (rect.y ≤ gp.2.y + gp.2.h ∧ gp.2.y ≤ rect.y + rect.h) ∧
        max rect.x gp.2.x ≤ min (rect.x + rect.w) (gp.2.x + gp.2.w) ∧
        max rect.y gp.2.y ≤ min (rect.y + rect.h) (gp.2.y + gp.2.h)) := by
  have key : ∀ (q : ℚ) (g : Rect), memberOverlapCheck q m hd rect g = true ↔
      ((rect.y ≤ g.y + g.h ∧ g.y ≤ rect.y + rect.h) ∧
       max rect.x g.x ≤ min (rect.x + rect.w) (g.x + g.w) ∧
       max rect.y g.y ≤ min (rect.y + rect.h) (g.y + g.h)) :=
    fun q g => memberOverlapCheck_of_le q m hd rect g h
  constructor
  · rw [Bool.eq_iff_iff]
    simp only [shouldMergeIntoGroup, List.any_eq_true]
    constructor
    · rintro ⟨gp, hgp, hc⟩
      exact ⟨gp, hgp, (key o2 gp.2).mpr ((key o gp.2).mp hc)⟩
    · rintro ⟨gp, hgp, hc⟩
      exact ⟨gp, hgp, (key o gp.2).mpr ((key o2 gp.2).mp hc)⟩
  · simp only [shouldMergeIntoGroup, List.any_eq_true]
    refine exists_congr fun gp => and_congr_right fun _ => ?_
    exact key o gp.2

/-- Witness for claim C1 (amended) at a concrete group and candidate. -/
theorem claim_C1_group_membership_witness :
    ((0:ℤ) ≤ 2) ∧
    (shouldMergeIntoGroup 0 2 0 [([((0:ℤ), (0:ℤ))], (⟨0, 0, 5, 5⟩ : Rect))] ⟨3, 3, 4, 4⟩ =
      shouldMergeIntoGroup 1 2 0 [([((0:ℤ), (0:ℤ))], (⟨0, 0, 5, 5⟩ : Rect))] ⟨3, 3, 4, 4⟩ ∧
    (shouldMergeIntoGroup 0 2 0 [([((0:ℤ), (0:ℤ))], (⟨0, 0, 5, 5⟩ : Rect))] ⟨3, 3, 4, 4⟩
        = true ↔
      ∃ gp ∈ [([((0:ℤ), (0:ℤ))], (⟨0, 0, 5, 5⟩ : Rect))],
        ((3:ℤ) ≤ gp.2.y + gp.2.h ∧ gp.2.y ≤ 3 + 4) ∧
        max 3 gp.2.x ≤ min (3 + 4) (gp.2.x + gp.2.w) ∧
        max 3 gp.2.y ≤ min (3 + 4) (gp.2.y + gp.2.h))) :=
  ⟨by decide, claim_C1_group_membership 0 1 2 0
    [([((0:ℤ), (0:ℤ))], (⟨0, 0, 5, 5⟩ : Rect))] ⟨3, 3, 4, 4⟩ (by decide)⟩

/-- Counterexample to claim C1 as stated.  Take two components on the
x-sorted input: a square with bounding box (0, 0, 5, 5) and a small square
with bounding box (5, 100, 2, 2).  The horizontal gap between the right edge
of the group member and the left edge of the candidate is 0, strictly below
max_horizontal_distance = 2, so by the claim the candidate matches the group
member by the horizontal-adjacency signal and must be added to the open
group, which would make the two components one output group.  The code
instead requires a closed bounding-box intersection with some member and
emits two separate groups. -/
theorem claim_C1_counterexample :
    specC1Signal 2 (1/5) (boundingRect [((0:ℤ), (0:ℤ)), (4, 0), (4, 4), (0, 4)])
      (boundingRect [((5:ℤ), (100:ℤ)), (6, 100), (6, 101), (5, 101)]) = true ∧
    group_note_components
      [[((0:ℤ), (0:ℤ)), (4, 0), (4, 4), (0, 4)],
       [((5:ℤ), (100:ℤ)), (6, 100), (6, 101), (5, 101)]] 2 (1/5)
      = [[((0:ℤ), (0:ℤ)), (4, 0), (4, 4), (0, 4)],
         [((5:ℤ), (100:ℤ)), (6, 100), (6, 101), (5, 101)]] := by
  constructor
  · decide
  · decide

theorem mkStaffLines_map_index (img : Image) (l : List Contour) :
    ∀ k : ℕ, (mkStaffLines img k l).map StaffLine.index = List.range' k l.length := by
  induction l with
  | nil => intro k; rfl
  | cons c rest ih =>
      intro k
      simp only [mkStaffLines, List.map_cons, List.length_cons, List.range'_succ]
      rw [ih]

theorem find_staff_lines_inv (img : Image) (pcnts : List Contour) (mA pS : ℤ)
    (out : List StaffLine) (h : find_staff_lines img pcnts mA pS = some out) :
    ∃ cnts, find_contours pcnts mA pS = some cnts ∧
      out = mkStaffLines img 0 (sortByKey (fun c => (boundingRect c).y) cnts) := by
  simp only [find_staff_lines] at h
  split at h
  · exact absurd h (by simp)
  · rename_i cnts hfc
    exact ⟨cnts, hfc, (Option.some.inj h).symm⟩

theorem get_of_map_range {α : Type} (f : α → ℕ) (l : List α)
    (h : l.map f = List.range l.length) (i : ℕ) (hi : i < l.length) :
    f (l.get ⟨i, hi⟩) = i := by
  have h1 : (l.map f).get ⟨i, by simpa using hi⟩ = f (l.get ⟨i, hi⟩) := by
    simp
  have h2 : (l.map f).get ⟨i, by simpa using hi⟩ =
      (List.range l.length).get ⟨i, by simpa using hi⟩ := by
    apply List.get_of_eq h
  rw [h1] at h2
  rw [h2, List.get_range]

/-- Claim C2 (amended).  For every successful run of find_staff_lines
followed by find_notes: staff_lines[i].index = i for every i, the staff
bounding-box y coordinates are NONDECREASING in index (the code only sorts
by y, so two staffs detected at the same vertical position keep equal y:
strict increase does not hold in general); within each staff the j-th note
has relative_index = j; and the global Note.index values over all staves, in
(staff.index, relative_index) lexicographic order, form exactly the
contiguous range 0..N-1. -/
theorem claim_C2_index_invariants (img : Image) (pcnts : List Contour)
    (detect : ℕ → List Contour) (sA sP nA nP m : ℤ) (o : ℚ) (staffs : List StaffLine)
    (h : parsePipeline img pcnts detect sA sP nA nP m o = some staffs) :
    (∀ i (hi : i < staffs.length), (staffs.get ⟨i, hi⟩).index = i) ∧
    List.Chain' (fun a b => a.bounds.y ≤ b.bounds.y) staffs ∧
    (∀ sl ∈ staffs, ∀ j (hj : j < sl.notes.length),
      (sl.notes.get ⟨j, hj⟩).relative_index = j) ∧
    (staffs.flatMap StaffLine.notes).map Note.index =
      List.range (staffs.flatMap StaffLine.notes).length := by
  simp only [parsePipeline] at h
  split at h
  · exact absurd h (by simp)
  · rename_i staffs0 hsl
    obtain ⟨cnts, hfc, hmk⟩ := find_staff_lines_inv img pcnts sA sP staffs0 hsl
    simp only [find_notes] at h
    have hpre : ∀ sl ∈ staffs0, sl.notes = [] ∧ sl.bounds = boundingRect sl.contour := by
      intro sl hs
      rw [hmk] at hs
      exact mkStaffLines_mem img 0 _ sl hs
    obtain ⟨hfidx, hfbounds⟩ := findNotesLoop_frame img detect nA nP m o staffs0 0 0 staffs h
    obtain ⟨hglobal, hrel⟩ := findNotesLoop_indices img detect nA nP m o staffs0 0 0 staffs h
      (fun sl hs => (hpre sl hs).1)
    have hlen : staffs.length = staffs0.length := by
      have := congrArg List.length hfidx
      simpa using this
    refine ⟨?_, ?_, ?_, ?_⟩
    · have hidx : staffs.map StaffLine.index = List.range staffs.length := by
        rw [hfidx, hmk, mkStaffLines_map_index, List.range_eq_range']
        have : staffs.length = (sortByKey (fun c => (boundingRect c).y) cnts).length := by
          rw [hlen, hmk, mkStaffLines_length]
        rw [this]
      intro i hi
      exact get_of_map_range StaffLine.index staffs hidx i hi
    · have hyb : (staffs.map StaffLine.bounds).Pairwise (fun a b => a.y ≤ b.y) := by
        rw [hfbounds, hmk, mkStaffLines_map_bounds]
        rw [List.pairwise_map]
        have hs := sortByKey_sorted (fun c => (boundingRect c).y) cnts
        exact hs
      rw [List.pairwise_map] at hyb
      exact hyb.chain'
    · intro sl hs j hj
      have hmap : sl.notes.map Note.relative_index = List.range sl.notes.length :=
        hrel sl hs
      exact get_of_map_range Note.relative_index sl.notes hmap j hj
    · rw [hglobal, List.range_eq_range']

/-- Witness for claim C2 (amended) on a concrete one-staff, one-note run of
the pipeline. -/
theorem claim_C2_index_invariants_witness :
    parsePipeline [] [exStaffContour] (fun _ => [exNoteContour]) (-1) 0 (-1) 0 10 0
        = some exPipelineStaffs ∧
    ((∀ i (hi : i < exPipelineStaffs.length), (exPipelineStaffs.get ⟨i, hi⟩).index = i) ∧
     List.Chain' (fun a b => a.bounds.y ≤ b.bounds.y) exPipelineStaffs ∧
     (∀ sl ∈ exPipelineStaffs, ∀ j (hj : j < sl.notes.length),
       (sl.notes.get ⟨j, hj⟩).relative_index = j) ∧
     (exPipelineStaffs.flatMap StaffLine.notes).map Note.index =
       List.range (exPipelineStaffs.flatMap StaffLine.notes).length) := by
  have e1 : find_contours [exStaffContour] (-1) 0 = sort_contours [exStaffContour] :=
    find_contours_of_neg _ _ (by norm_num)
  have e2 : find_contours [exNoteContour] (-1) 0 = sort_contours [exNoteContour] :=
    find_contours_of_neg _ _ (by norm_num)
  have hsl : find_staff_lines [] [exStaffContour] (-1) 0 =
      some [{ index := 0, image := [], contour := exStaffContour,
              bounds := ⟨0, 0, 10, 10⟩, notes := [] }] := by
    unfold find_staff_lines
    rw [e1]
    decide
  have hfn : find_notes [] (fun _ => [exNoteContour])
      [{ index := 0, image := [], contour := exStaffContour,
         bounds := ⟨0, 0, 10, 10⟩, notes := [] }] (-1) 0 10 0 = some exPipelineStaffs := by
    unfold find_notes findNotesLoop
    rw [e2]
    decide
  have hpipe : parsePipeline [] [exStaffContour] (fun _ => [exNoteContour]) (-1) 0 (-1) 0 10 0
      = some exPipelineStaffs := by
    unfold parsePipeline
    rw [hsl]
    exact hfn
  exact ⟨hpipe, claim_C2_index_invariants [] [exStaffContour] (fun _ => [exNoteContour])
    (-1) 0 (-1) 0 10 0 exPipelineStaffs hpipe⟩

/-- Counterexample to the strictness part of claim C2.  Two staff-scale
contours detected at the same vertical position (bounding boxes (0,0,5,5)
and (10,0,5,5)) survive find_staff_lines with indices 0 and 1 but EQUAL
bounding-box y coordinates, so the staff bounding-box y is not strictly
increasing in the index; the sort only guarantees nondecreasing order. -/
theorem claim_C2_counterexample :
    (find_staff_lines [] [[((0:ℤ), (0:ℤ)), (4, 0), (4, 4), (0, 4)],
        [((10:ℤ), (0:ℤ)), (14, 0), (14, 4), (10, 4)]] (-1) 0).map
      (fun ls => ls.map (fun sl => (sl.index, sl.bounds.y)))
      = some [((0:ℕ), (0:ℤ)), (1, 0)] := by
  have e : find_contours [[((0:ℤ), (0:ℤ)), (4, 0), (4, 4), (0, 4)],
      [((10:ℤ), (0:ℤ)), (14, 0), (14, 4), (10, 4)]] (-1) 0 =
      sort_contours [[((0:ℤ), (0:ℤ)), (4, 0), (4, 4), (0, 4)],
        [((10:ℤ), (0:ℤ)), (14, 0), (14, 4), (10, 4)]] :=
    find_contours_of_neg _ _ (by norm_num)
  unfold find_staff_lines
  rw [e]
  decide

/-- Claim C3.  For every note created by a successful run of
find_staff_lines followed by find_notes, the absolute position is the
relative position translated by the origin of the owning staff bounding
box. -/
theorem claim_C3_absolute_position (img : Image) (pcnts : List Contour)
    (detect : ℕ → List Contour) (sA sP nA nP m : ℤ) (o : ℚ) (staffs : List StaffLine)
    (h : parsePipeline img pcnts detect sA sP nA nP m o = some staffs) :
    ∀ sl ∈ staffs, ∀ n ∈ sl.notes,
      n.absolute_position =
        (n.relative_position.1 + sl.bounds.x, n.relative_position.2 + sl.bounds.y) := by
  simp only [parsePipeline] at h
  split at h
  · exact absurd h (by simp)
  · rename_i staffs0 hsl
    obtain ⟨cnts, hfc, hmk⟩ := find_staff_lines_inv img pcnts sA sP staffs0 hsl
    simp only [find_notes] at h
    refine findNotesLoop_abs img detect nA nP m o staffs0 0 0 staffs h ?_
    intro sl hs
    rw [hmk] at hs
    obtain ⟨hn, hb⟩ := mkStaffLines_mem img 0 _ sl hs
    exact ⟨hb, hn⟩

/-- Witness for claim C3 on a concrete one-staff, one-note run of the
pipeline. -/
theorem claim_C3_absolute_position_witness :
    parsePipeline [] [exStaffContour] (fun _ => [exNoteContour]) (-1) 0 (-1) 0 10 0
        = some exPipelineStaffs ∧
    (∀ sl ∈ exPipelineStaffs, ∀ n ∈ sl.notes,
      n.absolute_position =
        (n.relative_position.1 + sl.bounds.x, n.relative_position.2 + sl.bounds.y)) := by
  have e1 : find_contours [exStaffContour] (-1) 0 = sort_contours [exStaffContour] :=
    find_contours_of_neg _ _ (by norm_num)
  have e2 : find_contours [exNoteContour] (-1) 0 = sort_contours [exNoteContour] :=
    find_contours_of_neg _ _ (by norm_num)
  have hsl : find_staff_lines [] [exStaffContour] (-1) 0 =
      some [{ index := 0, image := [], contour := exStaffContour,
              bounds := ⟨0, 0, 10, 10⟩, notes := [] }] := by
    unfold find_staff_lines
    rw [e1]
    decide
  have hfn : find_notes [] (fun _ => [exNoteContour])
      [{ index := 0, image := [], contour := exStaffContour,
         bounds := ⟨0, 0, 10, 10⟩, notes := [] }] (-1) 0 10 0 = some exPipelineStaffs := by
    unfold find_notes findNotesLoop
    rw [e2]
    decide
  have hpipe : parsePipeline [] [exStaffContour] (fun _ => [exNoteContour]) (-1) 0 (-1) 0 10 0
      = some exPipelineStaffs := by
    unfold parsePipeline
    rw [hsl]
    exact hfn
  exact ⟨hpipe, claim_C3_absolute_position [] [exStaffContour] (fun _ => [exNoteContour])
    (-1) 0 (-1) 0 10 0 exPipelineStaffs hpipe⟩

theorem find_contours_zero_pad (cnts : List Contour) (mA : ℤ) :
    find_contours cnts mA 0 =
      sort_contours (cnts.filter (fun c => contourArea c > (mA : ℚ))) := by
  unfold find_contours
  simp

/-- Claim C4 (code bug witness).  With no raw contour at all (blank page) or
with every component at or below the area threshold, the Python code does
NOT return an empty list: the call to imutils.contours.sort_contours
unpacks an empty zip and raises a ValueError, modelled here as none.  Only
the second half of the claim holds: find_notes on an empty staff list does
return an empty list without error. -/
theorem claim_C4_empty_result :
    find_contours [] 10000 0 = none ∧
    find_staff_lines [] [] 10000 0 = none ∧
    find_contours [[((0:ℤ), (0:ℤ)), (1, 0), (1, 1), (0, 1)]] 10000 0 = none ∧
    (∀ (img : Image) (detect : ℕ → List Contour) (a b m : ℤ) (o : ℚ),
      find_notes img detect [] a b m o = some []) := by
  refine ⟨rfl, rfl, ?_, fun img detect a b m o => rfl⟩
  have harea : contourArea [((0:ℤ), (0:ℤ)), (1, 0), (1, 1), (0, 1)] ≤ (10000 : ℚ) := by
    norm_num [contourArea, shoelace, shoelaceFrom, cross]
  rw [find_contours_zero_pad]
  have hfil : List.filter (fun c => contourArea c > ((10000:ℤ) : ℚ))
      [[((0:ℤ), (0:ℤ)), (1, 0), (1, 1), (0, 1)]] = [] := by
    simp
    exact harea
  rw [hfil]
  rfl

/-- Counterexample to claim C5 as stated.  Two rectangles of enclosed areas
exactly min_contour_area = 12 and min_contour_area - 1 = 11 do NOT yield
exactly one detected contour: the strict comparison area > min_contour_area
drops BOTH of them (12 > 12 is false), and the subsequent
imutils.contours.sort_contours call on the now empty list raises a
ValueError (modelled none) instead of returning a one-element result. -/
theorem claim_C5_counterexample :
    contourArea [((0:ℤ), (0:ℤ)), (4, 0), (4, 3), (0, 3)] = 12 ∧
    contourArea [((0:ℤ), (10:ℤ)), (11, 10), (11, 11), (0, 11)] = 11 ∧
    find_contours [[((0:ℤ), (0:ℤ)), (4, 0), (4, 3), (0, 3)],
      [((0:ℤ), (10:ℤ)), (11, 10), (11, 11), (0, 11)]] 12 0 = none := by
  refine ⟨?_, ?_, ?_⟩
  · norm_num [contourArea, shoelace, shoelaceFrom, cross]
  · norm_num [contourArea, shoelace, shoelaceFrom, cross]
  · have h1 : contourArea [((0:ℤ), (0:ℤ)), (4, 0), (4, 3), (0, 3)] ≤ (12 : ℚ) := by
      norm_num [contourArea, shoelace, shoelaceFrom, cross]
    have h2 : contourArea [((0:ℤ), (10:ℤ)), (11, 10), (11, 11), (0, 11)] ≤ (12 : ℚ) := by
      norm_num [contourArea, shoelace, shoelaceFrom, cross]
    rw [find_contours_zero_pad]
    have hfil : List.filter (fun c => contourArea c > ((12:ℤ) : ℚ))
        [[((0:ℤ), (0:ℤ)), (4, 0), (4, 3), (0, 3)],
         [((0:ℤ), (10:ℤ)), (11, 10), (11, 11), (0, 11)]] = [] := by
      simp
      exact ⟨h1, h2⟩
    rw [hfil]
    rfl

/-- Claim C5 (amended).  On a successful zero-padding run, find_contours
retains a contour if and only if it came from the raw detection list and its
enclosed area is STRICTLY greater than min_contour_area; a contour of area
exactly min_contour_area is dropped.  (In the scenario of the claim, with
areas min_contour_area + 1 and min_contour_area, exactly the former
survives; with areas min_contour_area and min_contour_area - 1 both are
dropped and the empty result makes the code raise, see C4.) -/
theorem claim_C5_area_filter (cnts : List Contour) (minA : ℤ) (res : List Contour)
    (h : find_contours cnts minA 0 = some res) (c : Contour) :
    c ∈ res ↔ c ∈ cnts ∧ contourArea c > (minA : ℚ) := by
  rw [find_contours_zero_pad] at h
  unfold sort_contours at h
  split at h
  · exact absurd h (by simp)
  · rename_i a l heq
    have hres : res = sortByKey (fun c => (boundingRect c).x)
        (cnts.filter (fun c => contourArea c > (minA : ℚ))) := by
      rw [heq] at h ⊢
      exact (Option.some.inj h).symm
    rw [hres, sortByKey_mem, List.mem_filter]
    simp

/-- Witness for claim C5 (amended): with areas 13 and 12 against threshold
12, exactly the area-13 rectangle survives. -/
theorem claim_C5_area_filter_witness :
    find_contours [[((0:ℤ), (0:ℤ)), (13, 0), (13, 2), (0, 2)],
        [((0:ℤ), (10:ℤ)), (4, 10), (4, 13), (0, 13)]] 12 0
      = some [[((0:ℤ), (0:ℤ)), (13, 0), (13, 2), (0, 2)]] ∧
    ([((0:ℤ), (0:ℤ)), (13, 0), (13, 2), (0, 2)] ∈
        [[((0:ℤ), (0:ℤ)), (13, 0), (13, 2), (0, 2)]] ↔
      [((0:ℤ), (0:ℤ)), (13, 0), (13, 2), (0, 2)] ∈
        [[((0:ℤ), (0:ℤ)), (13, 0), (13, 2), (0, 2)],
         [((0:ℤ), (10:ℤ)), (4, 10), (4, 13), (0, 13)]] ∧
      contourArea [((0:ℤ), (0:ℤ)), (13, 0), (13, 2), (0, 2)] > ((12:ℤ) : ℚ)) := by
  have hpf : find_contours [[((0:ℤ), (0:ℤ)), (13, 0), (13, 2), (0, 2)],
      [((0:ℤ), (10:ℤ)), (4, 10), (4, 13), (0, 13)]] 12 0
      = some [[((0:ℤ), (0:ℤ)), (13, 0), (13, 2), (0, 2)]] := by
    rw [find_contours_zero_pad]
    have hfil : List.filter (fun c => contourArea c > ((12:ℤ) : ℚ))
        [[((0:ℤ), (0:ℤ)), (13, 0), (13, 2), (0, 2)],
         [((0:ℤ), (10:ℤ)), (4, 10), (4, 13), (0, 13)]]
        = [[((0:ℤ), (0:ℤ)), (13, 0), (13, 2), (0, 2)]] := by
      have ha : (12:ℚ) < contourArea [((0:ℤ), (0:ℤ)), (13, 0), (13, 2), (0, 2)] := by
        norm_num [contourArea, shoelace, shoelaceFrom, cross]
      have hb : ¬ ((12:ℚ) < contourArea [((0:ℤ), (10:ℤ)), (4, 10), (4, 13), (0, 13)]) := by
        norm_num [contourArea, shoelace, shoelaceFrom, cross]
      simp [List.filter_cons, hb]
      exact ha
    rw [hfil]
    decide
  exact ⟨hpf, claim_C5_area_filter
    [[((0:ℤ), (0:ℤ)), (13, 0), (13, 2), (0, 2)],
     [((0:ℤ), (10:ℤ)), (4, 10), (4, 13), (0, 13)]] 12
    [[((0:ℤ), (0:ℤ)), (13, 0), (13, 2), (0, 2)]] hpf
    [((0:ℤ), (0:ℤ)), (13, 0), (13, 2), (0, 2)]⟩

/-- Counterexample to claim C6 as stated.  A group of size 1 is returned
UNCHANGED by __merge_group (parser.py line 335), so for a single triangular
contour the output of group_note_components is the original 3-point polygon,
not a 4-point axis-aligned rectangle. -/
theorem claim_C6_counterexample :
    group_note_components [[((0:ℤ), (0:ℤ)), (3, 0), (0, 3)]] 5 0
      = [[((0:ℤ), (0:ℤ)), (3, 0), (0, 3)]] ∧
    ([((0:ℤ), (0:ℤ)), (3, 0), (0, 3)] : Contour).length = 3 :=
  ⟨by decide, rfl⟩

/-- Claim C6 (amended).  Every contour returned by group_note_components is
either one of the input contours returned unchanged (the size-1 group case)
or a 4-point axis-aligned rectangle; a group of two or more members is
merged into the 4-point rectangle [(xmin,ymin),(xmax,ymin),(xmax,ymax),
(xmin,ymax)] whose corners are exactly the union of the member bounding
boxes (each bound both dominates every member and is attained by one);
a group of size one is emitted unchanged. -/
theorem claim_C6_merge_geometry (cnts : List Contour) (m : ℤ) (o : ℚ) :
    (∀ c ∈ group_note_components cnts m o,
      c ∈ cnts ∨ ∃ xm ym xM yM, c = [(xm, ym), (xM, ym), (xM, yM), (xm, yM)]) ∧
    (∀ group : List (Contour × Rect), 2 ≤ group.length →
      ∃ xm ym xM yM,
        merge_group group = [(xm, ym), (xM, ym), (xM, yM), (xm, yM)] ∧
        (∀ gp ∈ group, xm ≤ gp.2.x ∧ gp.2.x + gp.2.w ≤ xM ∧
          ym ≤ gp.2.y ∧ gp.2.y + gp.2.h ≤ yM) ∧
        (∃ gp ∈ group, gp.2.x = xm) ∧ (∃ gp ∈ group, gp.2.x + gp.2.w = xM) ∧
        (∃ gp ∈ group, gp.2.y = ym) ∧ (∃ gp ∈ group, gp.2.y + gp.2.h = yM)) ∧
    (∀ (c : Contour) (r : Rect), merge_group [(c, r)] = c) := by
  refine ⟨?_, ?_, fun c r => rfl⟩
  · intro c hc
    unfold group_note_components at hc
    split at hc
    · cases hc
    · obtain ⟨runs, hne, hjoin, heq⟩ :=
        groupLoop_runs m o (sortByKey (fun c => (boundingRect c).x) cnts) []
      rw [heq] at hc
      obtain ⟨run, hrun, hcrun⟩ := List.mem_map.mp hc
      match run, hne run hrun with
      | [gp], _ =>
          left
          cases gp with
          | mk c0 r0 =>
              have hmem : (c0, r0) ∈ runs.flatten :=
                List.mem_flatten.mpr ⟨[(c0, r0)], hrun, List.mem_cons_self _ _⟩
              rw [hjoin] at hmem
              simp only [List.nil_append, List.mem_map] at hmem
              obtain ⟨c1, hc1, hpair⟩ := hmem
              have hc0 : c0 = c1 := (Prod.mk.injEq _ _ _ _).mp hpair.symm |>.1
              rw [← hcrun, merge_group_single, hc0]
              exact (sortByKey_mem _ cnts c1).mp hc1
      | gp1 :: gp2 :: gps, _ =>
          right
          obtain ⟨xm, ym, xM, yM, hmg, _, _, _, _, _⟩ :=
            merge_group_bounds (gp1 :: gp2 :: gps) (by simp)
          exact ⟨xm, ym, xM, yM, by rw [← hcrun, hmg]⟩
  · intro group h2
    exact merge_group_bounds group h2

/-- Witness for claim C6 (amended) at a concrete group of two members. -/
theorem claim_C6_merge_geometry_witness :
    (2 ≤ ([([((0:ℤ), (0:ℤ))], (⟨0, 0, 2, 2⟩ : Rect)),
           ([((5:ℤ), (0:ℤ))], (⟨5, 0, 3, 3⟩ : Rect))] : List (Contour × Rect)).length) ∧
    (∃ xm ym xM yM,
      merge_group [([((0:ℤ), (0:ℤ))], (⟨0, 0, 2, 2⟩ : Rect)),
        ([((5:ℤ), (0:ℤ))], (⟨5, 0, 3, 3⟩ : Rect))]
        = [(xm, ym), (xM, ym), (xM, yM), (xm, yM)] ∧
      (∀ gp ∈ [([((0:ℤ), (0:ℤ))], (⟨0, 0, 2, 2⟩ : Rect)),
          ([((5:ℤ), (0:ℤ))], (⟨5, 0, 3, 3⟩ : Rect))],
        xm ≤ gp.2.x ∧ gp.2.x + gp.2.w ≤ xM ∧ ym ≤ gp.2.y ∧ gp.2.y + gp.2.h ≤ yM) ∧
      (∃ gp ∈ [([((0:ℤ), (0:ℤ))], (⟨0, 0, 2, 2⟩ : Rect)),
          ([((5:ℤ), (0:ℤ))], (⟨5, 0, 3, 3⟩ : Rect))], gp.2.x = xm) ∧
      (∃ gp ∈ [([((0:ℤ), (0:ℤ))], (⟨0, 0, 2, 2⟩ : Rect)),
          ([((5:ℤ), (0:ℤ))], (⟨5, 0, 3, 3⟩ : Rect))], gp.2.x + gp.2.w = xM) ∧
      (∃ gp ∈ [([((0:ℤ), (0:ℤ))], (⟨0, 0, 2, 2⟩ : Rect)),
          ([((5:ℤ), (0:ℤ))], (⟨5, 0, 3, 3⟩ : Rect))], gp.2.y = ym) ∧
      (∃ gp ∈ [([((0:ℤ), (0:ℤ))], (⟨0, 0, 2, 2⟩ : Rect)),
          ([((5:ℤ), (0:ℤ))], (⟨5, 0, 3, 3⟩ : Rect))], gp.2.y + gp.2.h = yM)) :=
  ⟨by decide, (claim_C6_merge_geometry [] 0 0).2.1
    [([((0:ℤ), (0:ℤ))], (⟨0, 0, 2, 2⟩ : Rect)),
     ([((5:ℤ), (0:ℤ))], (⟨5, 0, 3, 3⟩ : Rect))] (by decide)⟩

/-- Claim C7.  Padding round-trip: when detection on the padded image yields
exactly the contours of the unpadded image translated by (+k, +k) (which is
the case for contours that do not touch the original image border),
find_contours with pad_size = k > 0 returns exactly the same contours as
find_contours with pad_size = 0: the area filter is translation invariant
and the -pad_size offset is applied exactly once, after detection and
filtering, to both axes of every surviving contour. -/
theorem claim_C7_padding (cnts : List Contour) (minA k : ℤ) (hk : 0 < k) :
    find_contours (cnts.map (shiftContour k k)) minA k = find_contours cnts minA 0 := by
  simp only [find_contours]
  have hkne : k ≠ 0 := by omega
  rw [if_pos hkne, if_neg (show ¬ ((0:ℤ) ≠ 0) by simp)]
  have hfil : (cnts.map (shiftContour k k)).filter
      (fun c => contourArea c > (minA : ℚ)) =
      (cnts.filter (fun c => contourArea c > (minA : ℚ))).map (shiftContour k k) := by
    induction cnts with
    | nil => rfl
    | cons c rest ih =>
        by_cases hc : contourArea c > (minA : ℚ)
        · have hc2 : contourArea (shiftContour k k c) > (minA : ℚ) := by
            rw [contourArea_shiftContour]; exact hc
          simp [List.filter_cons, hc, hc2, ih]
        · have hc2 : ¬ (contourArea (shiftContour k k c) > (minA : ℚ)) := by
            rw [contourArea_shiftContour]; exact hc
          simp only [List.map_cons, List.filter_cons, decide_eq_true_eq]
          simp [hc, hc2, ih]
  rw [hfil, List.map_map]
  have hpoint : (shiftPoint (-k) (-k) ∘ shiftPoint k k) = id := by
    funext p
    cases p with
    | mk a b => simp [shiftPoint]
  have hcomp : (shiftContour (-k) (-k) ∘ shiftContour k k) = id := by
    funext c
    simp [shiftContour, Function.comp, List.map_map, hpoint]
  rw [hcomp, List.map_id]

/-- Witness for claim C7 at a concrete contour and pad size 1. -/
theorem claim_C7_padding_witness :
    ((0:ℤ) < 1) ∧
    find_contours ([[((0:ℤ), (0:ℤ)), (2, 0), (2, 2), (0, 2)]].map (shiftContour 1 1)) 1 1
      = find_contours [[((0:ℤ), (0:ℤ)), (2, 0), (2, 2), (0, 2)]] 1 0 :=
  ⟨by decide, claim_C7_padding [[((0:ℤ), (0:ℤ)), (2, 0), (2, 2), (0, 2)]] 1 1 (by decide)⟩

/-- Claim C8.  extract_contours with axis = 2 signals the ValueError
"Axis must be 0 for horizontal or 1 for vertical" and produces no regions;
with axis = 0 the regions are produced in ascending bounding-box x order of
their contours, and with axis = 1 in ascending bounding-box y order (the
extraction maps each contour of the stably sorted list to its region). -/
theorem claim_C8_axis (img : Image) (cnts : List Contour) (fh : Bool) :
    extract_contours img cnts 2 fh =
      Except.error "Axis must be 0 for horizontal or 1 for vertical" ∧
    (∃ l : List Contour, l.Perm cnts ∧
      l.Sorted (fun a b => (boundingRect a).x ≤ (boundingRect b).x) ∧
      extract_contours img cnts 0 fh = Except.ok (l.map (extractRegion img fh))) ∧
    (∃ l : List Contour, l.Perm cnts ∧
      l.Sorted (fun a b => (boundingRect a).y ≤ (boundingRect b).y) ∧
      extract_contours img cnts 1 fh = Except.ok (l.map (extractRegion img fh))) := by
  refine ⟨rfl, ?_, ?_⟩
  · exact ⟨sortByKey (fun c => (boundingRect c).x) cnts, sortByKey_perm _ _,
      sortByKey_sorted _ _, rfl⟩
  · exact ⟨sortByKey (fun c => (boundingRect c).y) cnts, sortByKey_perm _ _,
      sortByKey_sorted _ _, rfl⟩

/-- Counterexample to claim C9 as stated.  find_contours performs no
validation of min_contour_area: called with the negative threshold -5 it
does not raise anything, it completes normally and returns the detected
contour (the filter keeps every contour since areas are nonnegative). -/
theorem claim_C9_counterexample :
    find_contours [[((0:ℤ), (0:ℤ)), (4, 0), (4, 4), (0, 4)]] (-5) 0
      = some [[((0:ℤ), (0:ℤ)), (4, 0), (4, 4), (0, 4)]] := by
  rw [find_contours_of_neg _ _ (by norm_num)]
  decide

/-- Claim C9 (amended).  A negative min_contour_area is silently accepted:
no InvalidArgument error exists in find_contours; the strict area filter
keeps every contour (areas are nonnegative), and on nonempty input the call
returns a permutation of the raw contours rather than signalling. -/
theorem claim_C9_no_validation (cnts : List Contour) (m : ℤ) (hm : m < 0) :
    find_contours cnts m 0 = sort_contours cnts ∧
    (cnts ≠ [] → ∃ l, find_contours cnts m 0 = some l ∧ l.Perm cnts) := by
  refine ⟨find_contours_of_neg cnts m hm, fun hne => ?_⟩
  rw [find_contours_of_neg cnts m hm]
  cases cnts with
  | nil => exact absurd rfl hne
  | cons c rest => exact ⟨_, rfl, sortByKey_perm _ _⟩

/-- Witness for claim C9 (amended) at a concrete negative threshold. -/
theorem claim_C9_no_validation_witness :
    ((-5:ℤ) < 0) ∧
    (find_contours [[((0:ℤ), (1:ℤ)), (4, 1), (4, 5), (0, 5)]] (-5) 0
        = sort_contours [[((0:ℤ), (1:ℤ)), (4, 1), (4, 5), (0, 5)]] ∧
     ([[((0:ℤ), (1:ℤ)), (4, 1), (4, 5), (0, 5)]] ≠ ([] : List Contour) →
       ∃ l, find_contours [[((0:ℤ), (1:ℤ)), (4, 1), (4, 5), (0, 5)]] (-5) 0 = some l ∧
         l.Perm [[((0:ℤ), (1:ℤ)), (4, 1), (4, 5), (0, 5)]])) :=
  ⟨by decide, claim_C9_no_validation [[((0:ℤ), (1:ℤ)), (4, 1), (4, 5), (0, 5)]] (-5)
    (by decide)⟩

theorem merge_group_contains (run : List (Contour × Rect))
    (hsnd : ∀ gp ∈ run, gp.2 = boundingRect gp.1) :
    ∀ gp ∈ run, rectInside gp.2 (boundingRect (merge_group run)) := by
  rcases run with _ | ⟨⟨c, r⟩, rest⟩
  · intro gp h; cases h
  rcases rest with _ | ⟨gp1, gps⟩
  · intro gp hgp
    rcases List.mem_cons.mp hgp with h | h
    · subst h
      have hr := hsnd (c, r) (List.mem_cons_self _ _)
      simp only at hr
      rw [merge_group_single, ← hr]
      exact ⟨le_refl _, le_refl _, le_refl _, le_refl _⟩
    · cases h
  · obtain ⟨xm, ym, xM, yM, hmg, hb, _, _, _, _⟩ :=
      merge_group_bounds ((c, r) :: gp1 :: gps) (by simp)
    have hr := hsnd (c, r) (List.mem_cons_self _ _)
    simp only at hr
    have hw : 0 ≤ r.w := by rw [hr]; exact boundingRect_w_nonneg c
    have hh : 0 ≤ r.h := by rw [hr]; exact boundingRect_h_nonneg c
    obtain ⟨h1, h2, h3, h4⟩ := hb (c, r) (List.mem_cons_self _ _)
    simp only at h1 h2 h3 h4
    have hx : xm ≤ xM := by omega
    have hy : ym ≤ yM := by omega
    intro gp hgp
    obtain ⟨b1, b2, b3, b4⟩ := hb gp hgp
    rw [hmg, boundingRect_rect4 xm ym xM yM hx hy]
    show xm ≤ gp.2.x ∧ ym ≤ gp.2.y ∧
      gp.2.x + gp.2.w ≤ xm + (xM - xm + 1) ∧ gp.2.y + gp.2.h ≤ ym + (yM - ym + 1)
    exact ⟨b1, b3, by omega, by omega⟩

theorem map_fst_flatten (L : List (List (Contour × Rect))) :
    (L.map (List.map Prod.fst)).flatten = L.flatten.map Prod.fst := by
  induction L with
  | nil => rfl
  | cons r rest ih => simp only [List.map_cons, List.flatten_cons, List.map_append, ih]

theorem length_le_flatten {α : Type} (L : List (List α)) (h : ∀ r ∈ L, r ≠ []) :
    L.length ≤ L.flatten.length := by
  induction L with
  | nil => simp
  | cons r rest ih =>
      have hr : 0 < r.length := List.length_pos.mpr (h r (List.mem_cons_self _ _))
      have hrest := ih (fun s hs => h s (List.mem_cons_of_mem _ hs))
      simp only [List.flatten_cons, List.length_append, List.length_cons]
      omega

theorem forall2_map_map {α β γ : Type} (L : List α) (f : α → β) (g : α → γ)
    (P : β → γ → Prop) (h : ∀ a ∈ L, P (f a) (g a)) :
    List.Forall₂ P (L.map f) (L.map g) := by
  induction L with
  | nil => exact List.Forall₂.nil
  | cons a rest ih =>
      exact List.Forall₂.cons (h a (List.mem_cons_self _ _))
        (ih (fun b hb => h b (List.mem_cons_of_mem _ hb)))

/-- Claim C10.  On nonempty input, group_note_components returns between 1
and len(input) contours; the x-sorted input is partitioned into consecutive
nonempty runs, one per output contour (every input contour lies in exactly
one run: the concatenation of the runs is a permutation of the input), and
the bounding box of every member of a run is contained in the bounding box
of that run output contour. -/
theorem claim_C10_partition (cnts : List Contour) (m : ℤ) (o : ℚ) (hne : cnts ≠ []) :
    1 ≤ (group_note_components cnts m o).length ∧
    (group_note_components cnts m o).length ≤ cnts.length ∧
    ∃ runs : List (List Contour),
      runs.flatten.Perm cnts ∧
      (∀ r ∈ runs, r ≠ []) ∧
      List.Forall₂ (fun run out => ∀ c ∈ run,
        rectInside (boundingRect c) (boundingRect out))
        runs (group_note_components cnts m o) := by
  have hne2 : cnts.isEmpty = false := by
    cases cnts with
    | nil => exact absurd rfl hne
    | cons a l => rfl
  have hG : group_note_components cnts m o =
      groupLoop m o (sortByKey (fun c => (boundingRect c).x) cnts) [] [] := by
    simp [group_note_components, hne2]
  obtain ⟨runs0, hne0, hjoin, heq⟩ :=
    groupLoop_runs m o (sortByKey (fun c => (boundingRect c).x) cnts) []
  simp only [List.nil_append] at hjoin
  have hsortperm := sortByKey_perm (fun c => (boundingRect c).x) cnts
  have hsndall : ∀ gp ∈ runs0.flatten, gp.2 = boundingRect gp.1 := by
    intro gp hgp
    rw [hjoin] at hgp
    obtain ⟨c1, _, hpair⟩ := List.mem_map.mp hgp
    rw [← hpair]
  have hflatlen : runs0.flatten.length = cnts.length := by
    rw [hjoin, List.length_map, sortByKey_length]
  have hrlen : (group_note_components cnts m o).length = runs0.length := by
    rw [hG, heq, List.length_map]
  refine ⟨?_, ?_, ?_⟩
  · rw [hrlen]
    rcases runs0 with _ | ⟨r0, rest0⟩
    · exfalso
      have hz : cnts.length = 0 := by rw [← hflatlen]; rfl
      exact hne (List.eq_nil_of_length_eq_zero hz)
    · simp
  · rw [hrlen, ← hflatlen]
    exact length_le_flatten runs0 hne0
  · refine ⟨runs0.map (List.map Prod.fst), ?_, ?_, ?_⟩
    · rw [map_fst_flatten, hjoin, List.map_map]
      have hid : (Prod.fst ∘ fun c : Contour => (c, boundingRect c)) = id := rfl
      rw [hid, List.map_id]
      exact hsortperm
    · intro r hr
      obtain ⟨r0, hr0, hmap⟩ := List.mem_map.mp hr
      rw [← hmap]
      simp [hne0 r0 hr0]
    · rw [hG, heq]
      apply forall2_map_map
      intro run0 hrun0 c hc
      obtain ⟨gp, hgp, hfst⟩ := List.mem_map.mp hc
      have hsnd : ∀ gp2 ∈ run0, gp2.2 = boundingRect gp2.1 := by
        intro gp2 hgp2
        exact hsndall gp2 (List.mem_flatten.mpr ⟨run0, hrun0, hgp2⟩)
      have hcont := merge_group_contains run0 hsnd gp hgp
      rw [hsnd gp hgp] at hcont
      rw [← hfst]
      exact hcont

/-- Witness for claim C10 at a concrete one-element input. -/
theorem claim_C10_partition_witness :
    ([[((0:ℤ), (2:ℤ)), (3, 2), (3, 5), (0, 5)]] : List Contour) ≠ [] ∧
    (1 ≤ (group_note_components [[((0:ℤ), (2:ℤ)), (3, 2), (3, 5), (0, 5)]] 4 0).length ∧
     (group_note_components [[((0:ℤ), (2:ℤ)), (3, 2), (3, 5), (0, 5)]] 4 0).length ≤
       ([[((0:ℤ), (2:ℤ)), (3, 2), (3, 5), (0, 5)]] : List Contour).length ∧
     ∃ runs : List (List Contour),
       runs.flatten.Perm [[((0:ℤ), (2:ℤ)), (3, 2), (3, 5), (0, 5)]] ∧
       (∀ r ∈ runs, r ≠ []) ∧
       List.Forall₂ (fun run out => ∀ c ∈ run,
         rectInside (boundingRect c) (boundingRect out))
         runs (group_note_components [[((0:ℤ), (2:ℤ)), (3, 2), (3, 5), (0, 5)]] 4 0)) :=
  ⟨by decide, claim_C10_partition [[((0:ℤ), (2:ℤ)), (3, 2), (3, 5), (0, 5)]] 4 0 (by decide)⟩
